import Mathlib

/-!
Verification of the openAudioBook pipeline (src/main.py).

Python strings are modelled as `List Char` (`PyStr`), Python lists as Lean
lists, the filesystem as an association list from file names to file data, and
the external collaborators (the TTS model, the Whisper transcriber, the audio
export and the ffmpeg mux) as oracles describing their observable behaviour.
All definitions are translated directly from the source; line numbers in the
comments refer to src/main.py.
-/

namespace OAB

/-- Python strings are modelled as lists of characters. -/
abbrev PyStr := List Char

/-- Convert a Lean string literal to the model type. -/
def pyOf (s : String) : PyStr := s.toList

/-- Python whitespace characters (the ones recognised by `str.split()` /
`str.strip()` on ASCII text). -/
def isSpace (c : Char) : Bool :=
  c = ' ' ∨ c = '\t' ∨ c = '\n' ∨ c = '\r' ∨ c = '\x0b' ∨ c = '\x0c'

/-- Python `s.split(sep)` for a one-character separator: splits at every
occurrence of `sep`, keeping empty pieces (so `"a.b.".split(".")` gives
`["a", "b", ""]`). -/
def pysplit (sep : Char) : PyStr → List PyStr
  | [] => [[]]
  | c :: rest =>
    match pysplit sep rest with
    | [] => if c = sep then [[], []] else [[c]]
    | s :: ss => if c = sep then [] :: s :: ss else (c :: s) :: ss

/-- Python `s.strip()`: remove leading and trailing whitespace. -/
def pystrip (s : PyStr) : PyStr :=
  ((s.dropWhile isSpace).reverse.dropWhile isSpace).reverse

/-- Helper for `pywords`: `acc` holds the characters of the current word in
reverse; a whitespace character flushes it. -/
def pywordsAux : PyStr → PyStr → List PyStr
  | [], acc => if acc = [] then [] else [acc.reverse]
  | c :: rest, acc =>
    if isSpace c then
      (if acc = [] then [] else [acc.reverse]) ++ pywordsAux rest []
    else pywordsAux rest (c :: acc)

/-- Python `s.split()` (no separator): split on runs of whitespace, dropping
empty pieces. -/
def pywords (s : PyStr) : List PyStr := pywordsAux s []

/-- Python `" ".join(lines)`. -/
def pyjoinSp : List PyStr → PyStr
  | [] => []
  | [l] => l
  | l :: rest => l ++ ' ' :: pyjoinSp rest

/-- src/main.py line 24: the sentence tier input,
`[s.strip() + "." for s in text.split(".") if s.strip()]`. -/
def sentencesOf (text : PyStr) : List PyStr :=
  ((pysplit '.' text).map pystrip).filterMap
    (fun s => if s = [] then none else some (s ++ ['.']))

/-- src/main.py line 35: the clause tier input,
`[p.strip() + "," for p in sentence.split(",") if p.strip()]`. -/
def commaParts (sentence : PyStr) : List PyStr :=
  ((pysplit ',' sentence).map pystrip).filterMap
    (fun p => if p = [] then none else some (p ++ [',']))

/-- src/main.py lines 40-48 (and again lines 71-79): greedy word-tier packing.
`temp` is the running `temp_chunk`; the returned list is the sequence of
chunks appended by the loop, including the final flush of a non-empty
`temp_chunk`.  Note the `else` branch appends `temp_chunk.strip()` even when
`temp_chunk` is empty, exactly as the source does. -/
def packWords (maxLength : Nat) (temp : PyStr) : List PyStr → List PyStr
  | [] => if temp = [] then [] else [pystrip temp]
  | w :: ws =>
    if temp.length + w.length + 1 ≤ maxLength then
      packWords maxLength (if temp = [] then w else temp ++ ' ' :: w) ws
    else
      pystrip temp :: packWords maxLength w ws

/-- src/main.py lines 28-57: the body of `for sentence in sentences`.
State is `(chunks, current_chunk)`. -/
def sentenceStep (maxLength : Nat) (st : List PyStr × PyStr) (sentence : PyStr) :
    List PyStr × PyStr :=
  if pystrip sentence = [] then st
  else if maxLength < sentence.length then
    (st.1 ++ (commaParts sentence).flatMap (fun part =>
      if maxLength < part.length then packWords maxLength [] (pywords part)
      else [part]), st.2)
  else if st.2.length + sentence.length + 1 ≤ maxLength then
    (st.1, if st.2 = [] then sentence else st.2 ++ ' ' :: sentence)
  else
    ((if st.2 = [] then st.1 else st.1 ++ [pystrip st.2]), sentence)

/-- src/main.py lines 24-61: the sentence loop plus the final flush of
`current_chunk`. -/
def mainChunks (maxLength : Nat) (text : PyStr) : List PyStr :=
  let st := (sentencesOf text).foldl (sentenceStep maxLength) ([], [])
  st.1 ++ (if st.2 = [] then [] else [pystrip st.2])

/-- src/main.py lines 63-79: the final cleanup pass that re-applies word-tier
packing to any chunk still exceeding `max_length`. -/
def finalCleanup (maxLength : Nat) (chunks : List PyStr) : List PyStr :=
  chunks.flatMap (fun c =>
    if c.length ≤ maxLength then [c]
    else packWords maxLength [] (pywords c))

/-- src/main.py lines 18-81: `split_into_chunks(text, max_length)`. -/
def split_into_chunks (text : PyStr) (maxLength : Nat) : List PyStr :=
  finalCleanup maxLength (mainChunks maxLength text)

/-! ### Claim C2: the chunk-length bound -/
/-- The amended chunk invariant: a chunk either fits within `maxLength` or is
a single oversized whitespace-free word. -/
def ChunkOk (maxLength : Nat) (c : PyStr) : Prop :=
  c.length ≤ maxLength ∨
    (maxLength < c.length ∧ c ≠ [] ∧ ∀ ch ∈ c, isSpace ch = false)

/-- The invariant carried through the sentence loop: emitted chunks satisfy
`ChunkOk` and `current_chunk` never exceeds `max_length`. -/
def StateOk (maxLength : Nat) (st : List PyStr × PyStr) : Prop :=
  (∀ c ∈ st.1, ChunkOk maxLength c) ∧ st.2.length ≤ maxLength

/-! ### Claims C3 and C7: segmentation order and the worked example -/
/-- Remove the terminator/separator padding appended by the segmenter
(trailing `'.'` and `','` characters) from a word. -/
def stripPad (w : PyStr) : PyStr :=
  (w.reverse.dropWhile (fun c => c = '.' ∨ c = ',')).reverse

/-! ### The similarity scorer (claim C6)

`text_similarity` (src/main.py lines 96-105) delegates to the standard
library's `difflib.SequenceMatcher(None, a, b).ratio()`.  The matcher is
embedded here from the CPython `difflib` source: `b2j` maps each character to
its (ascending) positions in `b`, with "popular" characters purged when
`len(b) >= 200` (autojunk); since `isjunk` is `None`, the junk set `bjunk`
is empty, so `isbjunk` is the constant-false predicate (kept as the `jk`
parameter below to mirror the source's four extension loops).  The ratio
`2*M/T` is computed in exact rationals; `M` is a natural number, so the
IEEE float computed by Python agrees with the rational on the properties
proved here (values 0, 1 and comparisons of equal numerators). -/
/-- Character of `s` at position `j` (positions used below are always in
range, so the default is irrelevant). -/
def chAt (s : PyStr) (j : Nat) : Char := s.getD j ' '

/-- Autojunk (difflib `__chain_b`): with `isjunk = None`, an element is
purged from `b2j` iff `len(b) >= 200` and it occurs more than
`len(b) // 100 + 1` times. -/
def isPopular (b : PyStr) (c : Char) : Bool :=
  decide (200 ≤ b.length) && decide (b.length / 100 + 1 < b.count c)

/-- difflib `__chain_b`: the ascending list of positions of `c` in `b`,
empty for purged popular elements. -/
def b2j (b : PyStr) (c : Char) : List Nat :=
  if isPopular b c then []
  else (List.range b.length).filter (fun j => decide (chAt b j = c))

/-- A `(besti, bestj, bestsize)` triple as returned by
`find_longest_match`. -/
structure Match where
  besti : Nat
  bestj : Nat
  bestsize : Nat
deriving DecidableEq

/-- The inner-loop state update for one `j` (difflib `find_longest_match`,
main loop): `k = j2len.get(j-1, 0) + 1`, and the best triple is replaced
only on a strict improvement. -/
def innerStepSt (i : Nat) (old : Nat → Nat) (st : Match) (j : Nat) : Match :=
  if st.bestsize < (if j = 0 then 0 else old (j - 1)) + 1 then
    ⟨i + 1 - ((if j = 0 then 0 else old (j - 1)) + 1),
     j + 1 - ((if j = 0 then 0 else old (j - 1)) + 1),
     (if j = 0 then 0 else old (j - 1)) + 1⟩
  else st

/-- One inner-loop step: updates the best triple and records
`newj2len[j] = k`.  `old` is the previous row's `j2len`. -/
def innerStep (i : Nat) (old : Nat → Nat) (acc : Match × (Nat → Nat)) (j : Nat) :
    Match × (Nat → Nat) :=
  (innerStepSt i old acc.1 j,
   fun x => if x = j then (if j = 0 then 0 else old (j - 1)) + 1 else acc.2 x)

/-- One row `i` of the main loop: iterate over the positions of `a[i]` in
`b` restricted to `[blo, bhi)` (the source's `continue`/`break` on the
ascending list), starting from a fresh `newj2len`. -/
def rowStep (a : PyStr) (bj : Char → List Nat) (blo bhi : Nat)
    (acc : Match × (Nat → Nat)) (i : Nat) : Match × (Nat → Nat) :=
  ((bj (chAt a i)).filter (fun j => decide (blo ≤ j) && decide (j < bhi))).foldl
    (innerStep i acc.2) (acc.1, fun _ => 0)

/-- The main loop of `find_longest_match`: `for i in range(alo, ahi)`. -/
def flmMain (a : PyStr) (bj : Char → List Nat) (alo ahi blo bhi : Nat) : Match :=
  ((List.range' alo (ahi - alo)).foldl (rowStep a bj blo bhi)
    (⟨alo, blo, 0⟩, fun _ => 0)).1

/-- The two backward extension loops of `find_longest_match` (`junkSide`
false for the non-junk pass, true for the junk pass); fuel-bounded, one unit
of fuel per executed iteration. -/
def extendLo (a b : PyStr) (junkSide : Bool) (jk : Char → Bool) (alo blo : Nat) :
    Nat → Match → Match
  | 0, st => st
  | fuel + 1, st =>
    if alo < st.besti ∧ blo < st.bestj ∧ jk (chAt b (st.bestj - 1)) = junkSide ∧
        chAt a (st.besti - 1) = chAt b (st.bestj - 1) then
      extendLo a b junkSide jk alo blo fuel
        ⟨st.besti - 1, st.bestj - 1, st.bestsize + 1⟩
    else st

/-- The two forward extension loops of `find_longest_match`. -/
def extendHi (a b : PyStr) (junkSide : Bool) (jk : Char → Bool) (ahi bhi : Nat) :
    Nat → Match → Match
  | 0, st => st
  | fuel + 1, st =>
    if st.besti + st.bestsize < ahi ∧ st.bestj + st.bestsize < bhi ∧
        jk (chAt b (st.bestj + st.bestsize)) = junkSide ∧
        chAt a (st.besti + st.bestsize) = chAt b (st.bestj + st.bestsize) then
      extendHi a b junkSide jk ahi bhi fuel ⟨st.besti, st.bestj, st.bestsize + 1⟩
    else st

/-- difflib `find_longest_match(alo, ahi, blo, bhi)`: the main loop followed
by the four extension loops (non-junk backward/forward, then junk
backward/forward).  `jk` is `isbjunk` (constant false when `isjunk` is
`None`); the fuel bounds each while loop (each iteration moves `besti` down
or `bestsize` up within `[0, len a]`, so `len a + len b + 1` is plenty). -/
def find_longest_match (a b : PyStr) (jk : Char → Bool) (alo ahi blo bhi : Nat) :
    Match :=
  extendHi a b true jk ahi bhi (a.length + b.length + 1)
    (extendLo a b true jk alo blo (a.length + b.length + 1)
      (extendHi a b false jk ahi bhi (a.length + b.length + 1)
        (extendLo a b false jk alo blo (a.length + b.length + 1)
          (flmMain a (b2j b) alo ahi blo bhi))))

/-- Total size of the matching blocks of `a[alo:ahi]` vs `b[blo:bhi]`
(difflib `get_matching_blocks` explores exactly these sub-ranges with a
queue; only the sum of the block sizes is needed by `ratio`, and it is
insensitive to the queue order and to the merging of adjacent blocks). -/
def matchTotal (a b : PyStr) (jk : Char → Bool) :
    Nat → Nat → Nat → Nat → Nat → Nat
  | 0, _, _, _, _ => 0
  | fuel + 1, alo, ahi, blo, bhi =>
    let m := find_longest_match a b jk alo ahi blo bhi
    if m.bestsize = 0 then 0
    else
      matchTotal a b jk fuel alo m.besti blo m.bestj + m.bestsize +
        matchTotal a b jk fuel (m.besti + m.bestsize) ahi
          (m.bestj + m.bestsize) bhi

/-- difflib `ratio()`: `2*M/T`, or `1.0` when both sequences are empty
(`_calculate_ratio`); computed in exact rationals. -/
def ratioQ (a b : PyStr) : ℚ :=
  if a.length + b.length = 0 then 1
  else (2 * (matchTotal a b (fun _ => false) (a.length + b.length + 1)
    0 a.length 0 b.length) : ℚ) / ((a.length : ℚ) + (b.length : ℚ))

/-- src/main.py lines 102-103: `' '.join(text.lower().split())`. -/
def normalizeText (t : PyStr) : PyStr := pyjoinSp (pywords (t.map Char.toLower))

/-- src/main.py lines 96-105: `text_similarity(text1, text2)` =
`SequenceMatcher(None, normalize(text1), normalize(text2)).ratio()`. -/
def text_similarity (text1 text2 : PyStr) : ℚ :=
  ratioQ (normalizeText text1) (normalizeText text2)

/-! ### The pipeline model

`create_audiobook_from_pickle` (src/main.py lines 124-243) is modelled with
explicit state passing.  The filesystem is an association list from file
names to file data; the TTS model, the Whisper transcriber, the pydub export
and the ffmpeg mux are oracles describing the observable outcome of each
external call. -/
/-- Contents of a file in the modelled filesystem. -/
inductive FileData where
  | wav (durationMs : Nat)
  | text (content : PyStr)
  | m4a
deriving DecidableEq

/-- The filesystem: an association list from file names to file data. -/
abbrev Fs := List (PyStr × FileData)

def lookupFile (fs : Fs) (n : PyStr) : Option FileData :=
  (fs.find? (fun kv => decide (kv.1 = n))).map (fun kv => kv.2)

def removeFile (fs : Fs) (n : PyStr) : Fs :=
  fs.filter (fun kv => !decide (kv.1 = n))

/-- Writing a file replaces any previous file of the same name. -/
def setFile (fs : Fs) (n : PyStr) (d : FileData) : Fs :=
  (n, d) :: removeFile fs n

/-- Digits of a natural number, as written by Python's f-string formatting. -/
def natToPy (n : Nat) : PyStr := Nat.toDigits 10 n

/-- src/main.py line 163:
`f"temp_{chapter['chapter_title']}_{i}_attempt_{attempt}.wav"`. -/
def tempWavName (title : PyStr) (i attempt : Nat) : PyStr :=
  pyOf "temp_" ++ title ++ pyOf "_" ++ natToPy i ++ pyOf "_attempt_" ++
    natToPy attempt ++ pyOf ".wav"

/-- src/main.py line 121. -/
def SIMILARITY_THRESHOLD : ℚ := 85 / 100

/-- Observable outcome of one synthesis-verification attempt: the TTS call
may raise (possibly leaving a partial file behind), the Whisper transcription
may raise (after the wav was written), or verification completes with a
similarity score; `duration` is the millisecond length of the written wav. -/
inductive AttemptResult where
  | ttsError (fileCreated : Bool)
  | verifyError (duration : Nat)
  | scored (similarity : ℚ) (duration : Nat)

/-- src/main.py lines 158-198: the synthesis-verification loop for one chunk.
`fuel` counts the remaining iterations of `while attempt < max_attempts`
(initially `max_attempts - attempt = max_attempts`), `attempt` is the
Python counter (used in the temp-file name).  Every attempt removes its temp
wav in `finally`; acceptance reads the wav back before the removal.  When the
loop exhausts, the code re-reads the last attempt's temp wav
(`AudioSegment.from_wav(temp_wav)` at line 197) as fallback — modelled
faithfully by a lookup in the filesystem, which fails (`.error`) when the file
no longer exists.  Returns (filesystem, number of TTS invocations,
audio-duration-and-accepted-flag or escaped error). -/
def chunkLoop (oracle : Nat → AttemptResult) (title : PyStr) (i maxAttempts : Nat) :
    Nat → Nat → Fs → Nat → Fs × Nat × Except Unit (Nat × Bool)
  | 0, _, fs, calls =>
    match lookupFile fs (tempWavName title i (maxAttempts - 1)) with
    | some (FileData.wav d) => (fs, calls, .ok (d, false))
    | _ => (fs, calls, .error ())
  | fuel + 1, attempt, fs, calls =>
    let name := tempWavName title i attempt
    match oracle attempt with
    | .ttsError created =>
      let fs1 := if created then setFile fs name (.wav 0) else fs
      chunkLoop oracle title i maxAttempts fuel (attempt + 1)
        (removeFile fs1 name) (calls + 1)
    | .verifyError d =>
      chunkLoop oracle title i maxAttempts fuel (attempt + 1)
        (removeFile (setFile fs name (.wav d)) name) (calls + 1)
    | .scored sim d =>
      let fs1 := setFile fs name (.wav d)
      if SIMILARITY_THRESHOLD ≤ sim then
        match lookupFile fs1 name with
        | some (FileData.wav dur) => (removeFile fs1 name, calls + 1, .ok (dur, true))
        | _ => (removeFile fs1 name, calls + 1, .error ())
      else
        chunkLoop oracle title i maxAttempts fuel (attempt + 1)
          (removeFile fs1 name) (calls + 1)

/-- One chunk of the loop, started with `attempt = 0` as in the source. -/
def runChunk (oracle : Nat → AttemptResult) (title : PyStr) (i maxAttempts : Nat)
    (fs : Fs) : Fs × Nat × Except Unit (Nat × Bool) :=
  chunkLoop oracle title i maxAttempts maxAttempts 0 fs 0

/-- src/main.py line 157: `for i, chunk in enumerate(text_chunks)`, with
`max_attempts = 3` per chunk (line 158); accumulates the chapter audio
length, or stops at the first escaped error. -/
def chapterChunks (ocr : Nat → Nat → AttemptResult) (title : PyStr) :
    List PyStr → Nat → Fs → Nat → Fs × Except Unit Nat
  | [], _, fs, acc => (fs, .ok acc)
  | _c :: rest, i, fs, acc =>
    match runChunk (ocr i) title i 3 fs with
    | (fs', _, .ok (d, _)) => chapterChunks ocr title rest (i + 1) fs' (acc + d)
    | (fs', _, .error e) => (fs', .error e)

/-- A chapter record as loaded from the pickle file. -/
structure Chapter where
  chapter_title : PyStr
  chapter_content : List PyStr
deriving DecidableEq

/-- A chapter timeline entry (src/main.py lines 203-207). -/
structure Entry where
  start_ms : Nat
  end_ms : Nat
  title : PyStr
deriving DecidableEq

/-- The mutable state of the chapter loop (src/main.py lines 138-142): the
filesystem, `len(final_audio)`, `chapters_info`, `current_offset`, plus a
ghost list `durs` recording each appended chapter's `len(chapter_audio)`
(exactly the value used to compute `chapter_end` at line 201). -/
structure PipeState where
  fs : Fs
  final_len : Nat
  chapters_info : List Entry
  current_offset : Nat
  durs : List Nat
deriving DecidableEq

/-- src/main.py lines 145-209: the chapter loop.  A chapter with an empty
content list or whose joined, stripped text is empty is skipped. -/
def processChapters (ocr : Nat → Nat → Nat → AttemptResult) :
    List Chapter → Nat → PipeState → PipeState × Except Unit Unit
  | [], _, st => (st, .ok ())
  | ch :: rest, idx, st =>
    if ch.chapter_content = [] then processChapters ocr rest (idx + 1) st
    else if pystrip (pyjoinSp ch.chapter_content) = [] then
      processChapters ocr rest (idx + 1) st
    else
      match chapterChunks (ocr idx) ch.chapter_title
          (split_into_chunks (pystrip (pyjoinSp ch.chapter_content)) 250) 0 st.fs 0 with
        | (fs', .ok audio) =>
          processChapters ocr rest (idx + 1)
            { fs := fs'
              final_len := st.final_len + audio
              chapters_info := st.chapters_info ++
                [⟨st.current_offset, st.current_offset + audio, ch.chapter_title⟩]
              current_offset := st.current_offset + audio
              durs := st.durs ++ [audio] }
        | (fs', .error e) => ({ st with fs := fs' }, .error e)

/-- src/main.py lines 91-92: the `HH:MM:SS` strings `start_str`/`end_str`;
the source computes them but never writes them to the file. -/
def hhmmss (t : Nat) : PyStr :=
  (if t / 3600 < 10 then '0' :: natToPy (t / 3600) else natToPy (t / 3600)) ++
    ':' :: (if t % 3600 / 60 < 10 then '0' :: natToPy (t % 3600 / 60)
      else natToPy (t % 3600 / 60)) ++
    ':' :: (if t % 60 < 10 then '0' :: natToPy (t % 60) else natToPy (t % 60))

/-- src/main.py line 94: one `[CHAPTER]` stanza; `start_time`/`end_time` are
`int(ms / 1000)`. -/
def renderChapter (e : Entry) : PyStr :=
  pyOf "[CHAPTER]\nTIMEBASE=1/1\nSTART=" ++ natToPy (e.start_ms / 1000) ++
    pyOf "\nEND=" ++ natToPy (e.end_ms / 1000) ++ pyOf "\ntitle=" ++ e.title ++
    pyOf "\n\n"

def renderChapters (info : List Entry) : PyStr := info.flatMap renderChapter

/-- src/main.py lines 83-94: `create_chapter_file(chapters_info, output_file)`.
The `output_file` argument is accepted but never used: line 85 opens the
literal path `'chapters.txt'`. -/
def create_chapter_file (chapters_info : List Entry) (output_file : PyStr)
    (fs : Fs) : Fs :=
  setFile fs (pyOf "chapters.txt") (.text (renderChapters chapters_info))

/-- Observable behaviour of the export step's external calls:
`final_audio.export` may raise (possibly leaving a partial file), and the
ffmpeg subprocess may raise. -/
structure ExportBehavior where
  exportRaises : Bool
  exportCreates : Bool
  ffmpegRaises : Bool

/-- src/main.py lines 211-243: export the waveform, write the chapter
metadata, run ffmpeg; on any failure re-raise after the `finally` block
removes `temp_audiobook.m4a` and `chapters.txt` when they exist. -/
def exportPhase (eb : ExportBehavior) (info : List Entry) (output_file : PyStr)
    (fs : Fs) : Fs × Except Unit Unit :=
  let tempAudio := pyOf "temp_audiobook.m4a"
  let chaptersTxt := pyOf "chapters.txt"
  if eb.exportRaises then
    let fs1 := if eb.exportCreates then setFile fs tempAudio .m4a else fs
    (removeFile (removeFile fs1 tempAudio) chaptersTxt, .error ())
  else
    let fs1 := setFile fs tempAudio .m4a
    let fs2 := create_chapter_file info chaptersTxt fs1
    if eb.ffmpegRaises then
      (removeFile (removeFile fs2 tempAudio) chaptersTxt, .error ())
    else
      let fs3 := setFile fs2 output_file .m4a
      (removeFile (removeFile fs3 tempAudio) chaptersTxt, .ok ())

/-- src/main.py lines 124-243: the whole pipeline for one document (the
pickle-load is the input list `chapters`; the run starts on a fresh
filesystem). -/
def create_audiobook_from_pickle (ocr : Nat → Nat → Nat → AttemptResult)
    (eb : ExportBehavior) (chapters : List Chapter) (output_file : PyStr) :
    PipeState × Except Unit Unit :=
  match processChapters ocr chapters 0 ⟨[], 0, [], 0, []⟩ with
  | (st, .ok ()) =>
    let r := exportPhase eb st.chapters_info output_file st.fs
    ({ st with fs := r.1 }, r.2)
  | (st, .error e) => (st, .error e)

/-! ### Claim C5: timeline contiguity -/
/-- The end offset of the last entry, or `off` when there is none. -/
def lastEnd : Nat → List Entry → Nat
  | off, [] => off
  | _, e :: es => lastEnd e.end_ms es

/-- Contiguity of a timeline starting at `off`: each entry starts where the
previous one ended and spans exactly the corresponding duration. -/
def contiguousFrom : Nat → List Entry → List Nat → Prop
  | _, [], [] => True
  | off, e :: es, d :: ds =>
    e.start_ms = off ∧ e.end_ms = off + d ∧ contiguousFrom e.end_ms es ds
  | _, _, _ => False

/-- The best triple lies within `[alo, ahi) × [blo, bhi)`. -/
def StInv (alo ahi blo bhi : Nat) (st : Match) : Prop :=
  alo ≤ st.besti ∧ st.besti + st.bestsize ≤ ahi ∧
    blo ≤ st.bestj ∧ st.bestj + st.bestsize ≤ bhi

/-- Invariant of a `j2len` map after `t` processed rows: every non-zero
entry sits at a column of `[blo, bhi)`, and is bounded by the column offset
and by the number of processed rows. -/
def MapInvB (blo bhi t : Nat) (m : Nat → Nat) : Prop :=
  ∀ x, m x = 0 ∨ (blo ≤ x ∧ x < bhi ∧ m x + blo ≤ x + 1 ∧ m x ≤ t)

/-! ### Claim C6, part 2: `ratio` of a string with itself is 1

For identical inputs with aligned ranges the main loop always returns a
*diagonal* best triple (`besti = bestj`): the `j2len` chain value at row `r`,
column `j` is bounded by the diagonal chain value at the earlier-processed
position (row `j` for `j < r`, column `r` for `j > r`), and ties never
replace the best (the guard is strict `<`).  The non-junk extension loops
then stretch a diagonal triple to the whole range (identical strings match
everywhere along the diagonal, and `isbjunk` is constant false), so the
first `find_longest_match` already covers everything. -/
/-- Column `j` of row `r` contributes to the main loop on identical strings
iff `j` is a position of `a[r]` in `a` listed in `b2j` and lies in
`[alo, ahi)`. -/
def condB (a : PyStr) (alo ahi r j : Nat) : Bool :=
  decide (j ∈ b2j a (chAt a r)) && decide (alo ≤ j) && decide (j < ahi)

/-- The `j2len` map after processing row `alo + d` (identical strings,
aligned ranges). -/
def rowMapF (a : PyStr) (alo ahi : Nat) : Nat → Nat → Nat
  | 0, j => if condB a alo ahi alo j then 1 else 0
  | d + 1, j =>
    if condB a alo ahi (alo + d + 1) j then
      (if j = 0 then 0 else rowMapF a alo ahi d (j - 1)) + 1
    else 0

/-- The `j2len` map seen *entering* row `alo + t`: the zero map for the
first row, else the previous row's map. -/
def prevMap (a : PyStr) (alo ahi : Nat) : Nat → Nat → Nat
  | 0, _ => 0
  | t + 1, x => rowMapF a alo ahi t x

/-! ## Theorems -/

theorem length_dropWhile_le' (p : Char → Bool) (l : PyStr) :
    (l.dropWhile p).length ≤ l.length := by
  induction l with
  | nil => simp [List.dropWhile]
  | cons c rest ih =>
    simp only [List.dropWhile]
    cases p c
    · simp
    · simp
      omega

/-! ### Lemmas about the string primitives -/
theorem pystrip_length_le (s : PyStr) : (pystrip s).length ≤ s.length := by
  have h1 := length_dropWhile_le' isSpace s
  have h2 := length_dropWhile_le' isSpace (s.dropWhile isSpace).reverse
  simp only [pystrip, List.length_reverse] at *
  omega

theorem dropWhile_eq_self_of_none (p : Char → Bool) (l : PyStr)
    (h : ∀ c ∈ l, p c = false) : l.dropWhile p = l := by
  cases l with
  | nil => rfl
  | cons c rest =>
    rw [List.dropWhile_cons_of_neg]
    simp [h c (by simp)]

theorem pystrip_of_noSpace (s : PyStr) (h : ∀ c ∈ s, isSpace c = false) :
    pystrip s = s := by
  unfold pystrip
  rw [dropWhile_eq_self_of_none _ _ h, dropWhile_eq_self_of_none, List.reverse_reverse]
  intro c hc
  exact h c (by simpa using hc)

theorem pywordsAux_sound : ∀ (s acc : PyStr), (∀ c ∈ acc, isSpace c = false) →
    ∀ w ∈ pywordsAux s acc, w ≠ [] ∧ ∀ c ∈ w, isSpace c = false := by
  intro s
  induction s with
  | nil =>
    intro acc hacc w hw
    by_cases ha : acc = []
    · simp [pywordsAux, ha] at hw
    · simp [pywordsAux, ha] at hw
      subst hw
      refine ⟨by simpa using ha, ?_⟩
      intro c hc
      exact hacc c (by simpa using hc)
  | cons c rest ih =>
    intro acc hacc w hw
    by_cases hc : isSpace c
    · simp only [pywordsAux, if_pos hc, List.mem_append] at hw
      rcases hw with hw | hw
      · by_cases ha : acc = []
        · simp [ha] at hw
        · simp [ha] at hw
          subst hw
          refine ⟨by simpa using ha, ?_⟩
          intro x hx
          exact hacc x (by simpa using hx)
      · exact ih [] (by simp) w hw
    · simp only [pywordsAux, if_neg hc] at hw
      refine ih (c :: acc) ?_ w hw
      intro x hx
      rcases List.mem_cons.1 hx with rfl | hx
      · exact Bool.eq_false_iff.2 hc
      · exact hacc x hx

theorem pywords_sound (s : PyStr) :
    ∀ w ∈ pywords s, w ≠ [] ∧ ∀ c ∈ w, isSpace c = false :=
  pywordsAux_sound s [] (by simp)

theorem chunkOk_of_le {maxLength : Nat} {c : PyStr} (h : c.length ≤ maxLength) :
    ChunkOk maxLength c := Or.inl h

theorem chunkOk_pystrip_of_le {maxLength : Nat} {c : PyStr}
    (h : c.length ≤ maxLength) : ChunkOk maxLength (pystrip c) :=
  Or.inl (le_trans (pystrip_length_le c) h)

theorem chunkOk_of_noSpace {maxLength : Nat} {c : PyStr}
    (h : ∀ ch ∈ c, isSpace ch = false) : ChunkOk maxLength c := by
  by_cases hl : c.length ≤ maxLength
  · exact Or.inl hl
  · refine Or.inr ⟨Nat.lt_of_not_le hl, ?_, h⟩
    intro hc
    exact hl (by simp [hc])

theorem packWords_ok (maxLength : Nat) : ∀ (ws : List PyStr) (temp : PyStr),
    (∀ w ∈ ws, ∀ c ∈ w, isSpace c = false) →
    (temp.length ≤ maxLength ∨ ∀ c ∈ temp, isSpace c = false) →
    ∀ ch ∈ packWords maxLength temp ws, ChunkOk maxLength ch := by
  intro ws
  induction ws with
  | nil =>
    intro temp _ htemp ch hch
    by_cases ht : temp = []
    · simp [packWords, ht] at hch
    · simp only [packWords, if_neg ht, List.mem_singleton] at hch
      subst hch
      rcases htemp with h | h
      · exact chunkOk_pystrip_of_le h
      · rw [pystrip_of_noSpace temp h]
        exact chunkOk_of_noSpace h
  | cons w ws ih =>
    intro temp hws htemp ch hch
    simp only [packWords] at hch
    by_cases hfit : temp.length + w.length + 1 ≤ maxLength
    · rw [if_pos hfit] at hch
      refine ih _ (fun x hx c hc => hws x (by simp [hx]) c hc) ?_ ch hch
      by_cases ht : temp = []
      · simp only [if_pos ht]
        exact Or.inr (fun c hc => hws w (by simp) c hc)
      · simp only [if_neg ht]
        left
        simp only [List.length_append, List.length_cons]
        omega
    · rw [if_neg hfit] at hch
      rcases List.mem_cons.1 hch with rfl | hch
      · rcases htemp with h | h
        · exact chunkOk_pystrip_of_le h
        · rw [pystrip_of_noSpace temp h]
          exact chunkOk_of_noSpace h
      · refine ih w (fun x hx c hc => hws x (by simp [hx]) c hc) ?_ ch hch
        exact Or.inr (fun c hc => hws w (by simp) c hc)

theorem sentenceStep_ok (maxLength : Nat) (st : List PyStr × PyStr)
    (sentence : PyStr) (h : StateOk maxLength st) :
    StateOk maxLength (sentenceStep maxLength st sentence) := by
  unfold sentenceStep
  by_cases h0 : pystrip sentence = []
  · simpa [h0] using h
  rw [if_neg h0]
  by_cases h1 : maxLength < sentence.length
  · rw [if_pos h1]
    refine ⟨?_, h.2⟩
    intro c hc
    rcases List.mem_append.1 hc with hc | hc
    · exact h.1 c hc
    · rcases List.mem_flatMap.1 hc with ⟨part, hpart, hc2⟩
      by_cases hl : maxLength < part.length
      · rw [if_pos hl] at hc2
        refine packWords_ok maxLength (pywords part) [] ?_ (Or.inl (by simp)) c hc2
        intro x hx
        exact (pywords_sound part x hx).2
      · rw [if_neg hl] at hc2
        simp only [List.mem_singleton] at hc2
        subst hc2
        exact chunkOk_of_le (Nat.le_of_not_lt hl)
  rw [if_neg h1]
  by_cases h2 : st.2.length + sentence.length + 1 ≤ maxLength
  · rw [if_pos h2]
    refine ⟨h.1, ?_⟩
    by_cases h3 : st.2 = []
    · simp only [if_pos h3]
      omega
    · simp only [if_neg h3, List.length_append, List.length_cons]
      omega
  · rw [if_neg h2]
    refine ⟨?_, Nat.le_of_not_lt h1⟩
    intro c hc
    by_cases h3 : st.2 = []
    · rw [if_pos h3] at hc
      exact h.1 c hc
    · rw [if_neg h3] at hc
      rcases List.mem_append.1 hc with hc | hc
      · exact h.1 c hc
      · simp only [List.mem_singleton] at hc
        subst hc
        exact chunkOk_pystrip_of_le h.2

theorem foldl_sentenceStep_ok (maxLength : Nat) : ∀ (ss : List PyStr)
    (st : List PyStr × PyStr), StateOk maxLength st →
    StateOk maxLength (ss.foldl (sentenceStep maxLength) st) := by
  intro ss
  induction ss with
  | nil => intro st h; exact h
  | cons s ss ih => intro st h; exact ih _ (sentenceStep_ok _ _ _ h)

theorem mainChunks_ok (maxLength : Nat) (text : PyStr) :
    ∀ c ∈ mainChunks maxLength text, ChunkOk maxLength c := by
  intro c hc
  have h := foldl_sentenceStep_ok maxLength (sentencesOf text) ([], [])
    ⟨by simp, by simp⟩
  unfold mainChunks at hc
  rcases List.mem_append.1 hc with hc | hc
  · exact h.1 c hc
  · by_cases h3 : ((sentencesOf text).foldl (sentenceStep maxLength) ([], [])).2 = []
    · rw [if_pos h3] at hc
      simp at hc
    · rw [if_neg h3] at hc
      simp only [List.mem_singleton] at hc
      subst hc
      exact chunkOk_pystrip_of_le h.2

/-- Claim C2 (amended): every chunk emitted by `split_into_chunks` has length
at most `max_length`, except that a chunk may be a single whitespace-free
word whose own length exceeds `max_length`.  (The original claim also said
every chunk is non-empty; that part fails, see `c2_counterexample`.) -/
theorem c2_chunk_bound (text : PyStr) (maxLength : Nat) :
    ∀ c ∈ split_into_chunks text maxLength, ChunkOk maxLength c := by
  intro c hc
  unfold split_into_chunks finalCleanup at hc
  rcases List.mem_flatMap.1 hc with ⟨c0, hc0, hc1⟩
  by_cases hl : c0.length ≤ maxLength
  · rw [if_pos hl] at hc1
    simp only [List.mem_singleton] at hc1
    subst hc1
    exact mainChunks_ok maxLength text _ hc0
  · rw [if_neg hl] at hc1
    refine packWords_ok maxLength (pywords c0) [] ?_ (Or.inl (by simp)) c hc1
    intro x hx
    exact (pywords_sound c0 x hx).2

/-- Witness for `c2_chunk_bound` at a concrete input: the oversized chunk
`"abcdefghijklmnop.,"` produced from a 16-character single-word text with
`max_length = 15` satisfies the amended invariant. -/
theorem c2_chunk_bound_witness :
    (pyOf "abcdefghijklmnop.,") ∈ split_into_chunks (pyOf "abcdefghijklmnop") 15 ∧
      ChunkOk 15 (pyOf "abcdefghijklmnop.,") :=
  ⟨by decide, c2_chunk_bound (pyOf "abcdefghijklmnop") 15 _ (by decide)⟩

/-- Claim C2 counterexample: the claim asserts every emitted chunk is
non-empty, but on the single 16-character word `"abcdefghijklmnop"` with
`max_length = 15` the word tier emits empty chunks (the `else` branch appends
`temp_chunk.strip()` while `temp_chunk` is still `""`). -/
theorem c2_counterexample :
    ¬ (∀ c ∈ split_into_chunks (pyOf "abcdefghijklmnop") 15, c ≠ []) := by
  decide

/-- Claim C3 (code bug): chunks are NOT emitted in original text order.  On
`"Aa bb. Cccc dddd eeee ffff. Gg hh."` with `max_length = 10` the long second
sentence's word-tier chunks are appended to `chunks` while the buffered first
sentence is still pending in `current_chunk`, so the first sentence appears
after them; the resulting word sequence (padding stripped) differs from the
original text's. -/
theorem c3_order_violation :
    split_into_chunks (pyOf "Aa bb. Cccc dddd eeee ffff. Gg hh.") 10 =
      [pyOf "Cccc dddd", pyOf "eeee", pyOf "ffff.,", pyOf "Aa bb.", pyOf "Gg hh."] ∧
    ((split_into_chunks (pyOf "Aa bb. Cccc dddd eeee ffff. Gg hh.") 10).flatMap
        pywords).map stripPad ≠
      (pywords (pyOf "Aa bb. Cccc dddd eeee ffff. Gg hh.")).map stripPad := by
  constructor
  · decide
  · decide

/-- Claim C7 counterexample: on `"Hello world. This is a test."` with
`max_length = 15` the code does not return
`["Hello world.", "This is a", "test."]`. -/
theorem c7_counterexample :
    split_into_chunks (pyOf "Hello world. This is a test.") 15 ≠
      [pyOf "Hello world.", pyOf "This is a", pyOf "test."] := by
  decide

/-- Claim C7 (amended): `"This is a test."` is exactly 15 characters long, so
with `max_length = 15` it is not split (the guard is strict `>`), and the
output is `["Hello world.", "This is a test."]`. -/
theorem c7_actual_output :
    split_into_chunks (pyOf "Hello world. This is a test.") 15 =
      [pyOf "Hello world.", pyOf "This is a test."] := by
  decide

theorem removeFile_setFile (fs : Fs) (n : PyStr) (d : FileData) :
    removeFile (setFile fs n d) n = removeFile fs n := by
  simp [removeFile, setFile, List.filter_filter]

theorem mem_removeFile {kv : PyStr × FileData} {fs : Fs} {n : PyStr}
    (h : kv ∈ removeFile fs n) : kv ∈ fs ∧ kv.1 ≠ n := by
  have h1 := List.mem_filter.1 h
  refine ⟨h1.1, ?_⟩
  simpa using h1.2

theorem mem_setFile {kv : PyStr × FileData} {fs : Fs} {n : PyStr} {d : FileData}
    (h : kv ∈ setFile fs n d) : kv = (n, d) ∨ kv ∈ fs := by
  rcases List.mem_cons.1 h with h | h
  · exact Or.inl h
  · exact Or.inr (mem_removeFile h).1

theorem lookupFile_cons (kv : PyStr × FileData) (fs : Fs) (k : PyStr) :
    lookupFile (kv :: fs) k = if kv.1 = k then some kv.2 else lookupFile fs k := by
  by_cases h : kv.1 = k
  · simp [lookupFile, List.find?, h]
  · simp [lookupFile, List.find?, h]

theorem lookupFile_removeFile (fs : Fs) (n k : PyStr) :
    lookupFile (removeFile fs n) k = if k = n then none else lookupFile fs k := by
  induction fs with
  | nil =>
    by_cases hk : k = n <;> simp [removeFile, lookupFile, hk]
  | cons kv fs ih =>
    by_cases h1 : kv.1 = n
    · rw [removeFile, List.filter_cons_of_neg (by simp [h1])]
      rw [removeFile] at ih
      rw [ih]
      by_cases hk : k = n
      · simp [hk]
      · have h2 : kv.1 ≠ k := fun h => hk (by rw [← h, h1])
        simp [hk, lookupFile_cons, h2]
    · rw [removeFile, List.filter_cons_of_pos (by simp [h1])]
      rw [removeFile] at ih
      by_cases h2 : kv.1 = k
      · have hk : k ≠ n := fun h => h1 (by rw [h2, h])
        simp [lookupFile_cons, h2, hk]
      · simp [lookupFile_cons, h2, ih]

theorem lookupFile_setFile (fs : Fs) (n : PyStr) (d : FileData) (k : PyStr) :
    lookupFile (setFile fs n d) k =
      if k = n then some d else lookupFile fs k := by
  by_cases hk : k = n
  · simp [setFile, lookupFile_cons, hk]
  · have h2 : n ≠ k := fun h => hk h.symm
    simp [setFile, lookupFile_cons, h2, lookupFile_removeFile, hk]

/-! ### Claims C1 and C4: the synthesis-verification loop -/
/-- When every attempt fails (TTS raises, verification raises, or the score
stays below the threshold), the loop runs through all its fuel and then the
fallback read fails: each attempt's `finally` removed its temp wav, so on a
clean filesystem the lookup at exhaustion finds nothing. -/
theorem chunkLoop_exhausts (oracle : Nat → AttemptResult) (title : PyStr)
    (i maxAttempts : Nat)
    (h : ∀ a sim d, oracle a = .scored sim d → ¬ SIMILARITY_THRESHOLD ≤ sim) :
    ∀ (fuel attempt calls : Nat),
      chunkLoop oracle title i maxAttempts fuel attempt [] calls =
        ([], calls + fuel, .error ()) := by
  intro fuel
  induction fuel with
  | zero => intro attempt calls; rfl
  | succ fuel ih =>
    intro attempt calls
    have harith : calls + 1 + fuel = calls + (fuel + 1) := by omega
    have ih' := ih (attempt + 1) (calls + 1)
    rw [harith] at ih'
    cases ho : oracle attempt with
    | ttsError created =>
      simp only [chunkLoop, ho]
      cases created
      · simpa [removeFile] using ih'
      · simp only [Bool.false_eq_true, if_false, if_true, removeFile_setFile]
        simpa [removeFile] using ih'
    | verifyError d =>
      simp only [chunkLoop, ho, removeFile_setFile]
      simpa [removeFile] using ih'
    | scored sim d =>
      simp only [chunkLoop, ho, if_neg (h attempt sim d ho), removeFile_setFile]
      simpa [removeFile] using ih'

/-- Claim C1 (code bug): with `max_attempts = 3` and every attempt scoring
similarity 0.40 (below the 0.85 threshold), the loop does NOT terminate
non-fatally with the last attempt's audio: every attempt's `finally` block
already deleted its temp wav, so the fallback
`AudioSegment.from_wav(temp_wav)` at line 197 finds no file and the resulting
error escapes the loop (outcome `.error`, no audio appended, after exactly 3
synthesis invocations). -/
theorem c1_exhausted_fallback_crashes :
    runChunk (fun _ => .scored (40 / 100) 1000) (pyOf "T") 0 3 [] =
      ([], 3, .error ()) := by
  rw [runChunk, chunkLoop_exhausts]
  intro a sim d ha
  injection ha with h1 h2
  rw [← h1, SIMILARITY_THRESHOLD]
  norm_num

/-- Every iteration of the loop performs exactly one TTS invocation, so the
total is bounded by the fuel. -/
theorem chunkLoop_calls_le (oracle : Nat → AttemptResult) (title : PyStr)
    (i maxAttempts : Nat) : ∀ (fuel attempt : Nat) (fs : Fs) (calls : Nat),
    (chunkLoop oracle title i maxAttempts fuel attempt fs calls).2.1 ≤ calls + fuel := by
  intro fuel
  induction fuel with
  | zero =>
    intro attempt fs calls
    cases h : lookupFile fs (tempWavName title i (maxAttempts - 1)) with
    | none => simp [chunkLoop, h]
    | some fd => cases fd <;> simp [chunkLoop, h]
  | succ fuel ih =>
    intro attempt fs calls
    cases ho : oracle attempt with
    | ttsError created =>
      simp only [chunkLoop, ho]
      exact le_trans (ih _ _ _) (by omega)
    | verifyError d =>
      simp only [chunkLoop, ho]
      exact le_trans (ih _ _ _) (by omega)
    | scored sim d =>
      simp only [chunkLoop, ho]
      by_cases hs : SIMILARITY_THRESHOLD ≤ sim
      · rw [if_pos hs]
        cases hl : lookupFile (setFile fs (tempWavName title i attempt) (.wav d))
            (tempWavName title i attempt) with
        | none => simp
        | some fd => cases fd <;> simp
      · rw [if_neg hs]
        exact le_trans (ih _ _ _) (by omega)

/-- Claim C4: for every chunk the loop performs at most `max_attempts`
synthesis invocations, whatever the attempt outcomes; and with similarity
0.40 on every attempt and `max_attempts = 3`, exactly 3 invocations occur. -/
theorem c4_bounded_invocations :
    (∀ (oracle : Nat → AttemptResult) (title : PyStr) (i maxAttempts : Nat) (fs : Fs),
      (runChunk oracle title i maxAttempts fs).2.1 ≤ maxAttempts) ∧
    (runChunk (fun _ => .scored (40 / 100) 1000) (pyOf "T") 1 3 []).2.1 = 3 := by
  constructor
  · intro oracle title i maxAttempts fs
    simpa using chunkLoop_calls_le oracle title i maxAttempts maxAttempts 0 fs 0
  · rw [runChunk, chunkLoop_exhausts]
    intro a sim d ha
    injection ha with h1 h2
    rw [← h1, SIMILARITY_THRESHOLD]
    norm_num

theorem lastEnd_append (e : Entry) : ∀ (es : List Entry) (off : Nat),
    lastEnd off (es ++ [e]) = e.end_ms := by
  intro es
  induction es with
  | nil => intro off; rfl
  | cons e0 es ih => intro off; exact ih e0.end_ms

theorem contiguousFrom_append (t : PyStr) (d : Nat) : ∀ (es : List Entry)
    (ds : List Nat) (off : Nat), contiguousFrom off es ds →
    contiguousFrom off (es ++ [⟨lastEnd off es, lastEnd off es + d, t⟩])
      (ds ++ [d]) := by
  intro es
  induction es with
  | nil =>
    intro ds off h
    cases ds with
    | nil => exact ⟨rfl, rfl, trivial⟩
    | cons d0 ds => exact h.elim
  | cons e es ih =>
    intro ds off h
    cases ds with
    | nil => exact h.elim
    | cons d0 ds =>
      obtain ⟨h1, h2, h3⟩ := h
      exact ⟨h1, h2, ih ds e.end_ms h3⟩

theorem processChapters_contig (ocr : Nat → Nat → Nat → AttemptResult) :
    ∀ (chapters : List Chapter) (idx : Nat) (st : PipeState),
      contiguousFrom 0 st.chapters_info st.durs →
      st.current_offset = lastEnd 0 st.chapters_info →
      contiguousFrom 0 ((processChapters ocr chapters idx st).1).chapters_info
        ((processChapters ocr chapters idx st).1).durs := by
  intro chapters
  induction chapters with
  | nil => intro idx st h1 _; exact h1
  | cons ch rest ih =>
    intro idx st h1 h2
    simp only [processChapters]
    by_cases hc1 : ch.chapter_content = []
    · rw [if_pos hc1]
      exact ih _ _ h1 h2
    rw [if_neg hc1]
    by_cases hc2 : pystrip (pyjoinSp ch.chapter_content) = []
    · rw [if_pos hc2]
      exact ih _ _ h1 h2
    rw [if_neg hc2]
    split
    · refine ih _ _ ?_ ?_
      · simp only
        rw [h2]
        exact contiguousFrom_append _ _ _ _ _ h1
      · simp only
        rw [lastEnd_append, h2]
    · exact h1

/-- Claim C5: starting from the initial state (offset 0, empty timeline), the
produced timeline entries are contiguous: the first entry starts at 0, each
entry starts at the previous entry's end, and each entry spans exactly the
length of that chapter's assembled audio (the ghost list `durs` records each
appended chapter's `len(chapter_audio)`).  This holds whether the run
completes or stops at an escaped per-chunk error. -/
theorem c5_timeline_contiguous (ocr : Nat → Nat → Nat → AttemptResult)
    (chapters : List Chapter) :
    contiguousFrom 0
      ((processChapters ocr chapters 0 ⟨[], 0, [], 0, []⟩).1).chapters_info
      ((processChapters ocr chapters 0 ⟨[], 0, [], 0, []⟩).1).durs :=
  processChapters_contig ocr chapters 0 _ trivial rfl

/-! ### Claim C8: blank chapters are skipped -/
theorem pyjoinSp_allSpace : ∀ (ls : List PyStr),
    (∀ l ∈ ls, ∀ c ∈ l, isSpace c = true) →
    ∀ c ∈ pyjoinSp ls, isSpace c = true := by
  intro ls
  induction ls with
  | nil => intro _ c hc; simp [pyjoinSp] at hc
  | cons l rest ih =>
    intro h c hc
    cases rest with
    | nil => exact h l (by simp) c (by simpa [pyjoinSp] using hc)
    | cons l2 rest2 =>
      simp only [pyjoinSp, List.mem_append, List.mem_cons] at hc
      rcases hc with hc | hc | hc
      · exact h l (by simp) c hc
      · subst hc; rfl
      · exact ih (fun x hx => h x (by simp [hx])) c hc

theorem dropWhile_all (p : Char → Bool) : ∀ (l : PyStr),
    (∀ c ∈ l, p c = true) → l.dropWhile p = [] := by
  intro l
  induction l with
  | nil => intro _; rfl
  | cons c rest ih =>
    intro h
    rw [List.dropWhile_cons_of_pos (by simp [h c (by simp)])]
    exact ih (fun x hx => h x (by simp [hx]))

theorem pystrip_allSpace (s : PyStr) (h : ∀ c ∈ s, isSpace c = true) :
    pystrip s = [] := by
  unfold pystrip
  rw [dropWhile_all isSpace s h]
  rfl

/-- Claim C8: a chapter all of whose content lines are empty or
whitespace-only is skipped entirely — processing it is identical to not
processing it at all: no audio is appended, no timeline entry is produced,
every state component is untouched. -/
theorem c8_blank_chapter_skipped (ocr : Nat → Nat → Nat → AttemptResult)
    (rest : List Chapter) (idx : Nat) (st : PipeState) (ch : Chapter)
    (h : ∀ l ∈ ch.chapter_content, ∀ c ∈ l, isSpace c = true) :
    processChapters ocr (ch :: rest) idx st =
      processChapters ocr rest (idx + 1) st := by
  simp only [processChapters]
  by_cases hc1 : ch.chapter_content = []
  · rw [if_pos hc1]
  · rw [if_neg hc1,
      if_pos (pystrip_allSpace _ (pyjoinSp_allSpace _ h))]

/-- Witness for `c8_blank_chapter_skipped` on the spec's concrete example
`["", "  "]`. -/
theorem c8_blank_chapter_skipped_witness :
    (∀ l ∈ [([] : PyStr), [' ', ' ']], ∀ c ∈ l, isSpace c = true) ∧
      processChapters (fun _ _ _ => .scored 1 100)
          [⟨pyOf "T", [[], [' ', ' ']]⟩] 0 ⟨[], 0, [], 0, []⟩ =
        processChapters (fun _ _ _ => .scored 1 100) [] 1 ⟨[], 0, [], 0, []⟩ :=
  ⟨by decide,
    c8_blank_chapter_skipped (fun _ _ _ => .scored 1 100) [] 0
      ⟨[], 0, [], 0, []⟩ ⟨pyOf "T", [[], [' ', ' ']]⟩ (by decide)⟩

/-! ### Claim C9: cleanup of temporary artifacts -/
theorem chunkLoop_fs_nil (oracle : Nat → AttemptResult) (title : PyStr)
    (i maxAttempts : Nat) : ∀ (fuel attempt calls : Nat),
    (chunkLoop oracle title i maxAttempts fuel attempt [] calls).1 = [] := by
  intro fuel
  induction fuel with
  | zero => intro attempt calls; rfl
  | succ fuel ih =>
    intro attempt calls
    cases ho : oracle attempt with
    | ttsError created =>
      simp only [chunkLoop, ho]
      cases created
      · simpa [removeFile] using ih (attempt + 1) (calls + 1)
      · simp only [Bool.false_eq_true, if_false, if_true, removeFile_setFile]
        simpa [removeFile] using ih (attempt + 1) (calls + 1)
    | verifyError d =>
      simp only [chunkLoop, ho, removeFile_setFile]
      simpa [removeFile] using ih (attempt + 1) (calls + 1)
    | scored sim d =>
      simp only [chunkLoop, ho]
      by_cases hs : SIMILARITY_THRESHOLD ≤ sim
      · rw [if_pos hs]
        have hre : removeFile (setFile ([] : Fs) (tempWavName title i attempt)
            (.wav d)) (tempWavName title i attempt) = [] := by
          rw [removeFile_setFile]; rfl
        split <;> exact hre
      · rw [if_neg hs, removeFile_setFile]
        simpa [removeFile] using ih (attempt + 1) (calls + 1)

theorem chapterChunks_fs_nil (ocr : Nat → Nat → AttemptResult) (title : PyStr) :
    ∀ (chunks : List PyStr) (i acc : Nat),
    (chapterChunks ocr title chunks i [] acc).1 = [] := by
  intro chunks
  induction chunks with
  | nil => intro i acc; rfl
  | cons c rest ih =>
    intro i acc
    have hfs : (runChunk (ocr i) title i 3 []).1 = [] :=
      chunkLoop_fs_nil (ocr i) title i 3 3 0 0
    rcases hr : runChunk (ocr i) title i 3 [] with ⟨fs', calls', res⟩
    rw [hr] at hfs
    simp only at hfs
    subst hfs
    simp only [chapterChunks, hr]
    cases res with
    | ok v =>
      rcases v with ⟨d, acc'⟩
      exact ih _ _
    | error e => rfl

theorem processChapters_fs_nil (ocr : Nat → Nat → Nat → AttemptResult) :
    ∀ (chapters : List Chapter) (idx : Nat) (st : PipeState), st.fs = [] →
    ((processChapters ocr chapters idx st).1).fs = [] := by
  intro chapters
  induction chapters with
  | nil => intro idx st h; exact h
  | cons ch rest ih =>
    intro idx st h
    simp only [processChapters]
    by_cases hc1 : ch.chapter_content = []
    · rw [if_pos hc1]; exact ih _ _ h
    rw [if_neg hc1]
    by_cases hc2 : pystrip (pyjoinSp ch.chapter_content) = []
    · rw [if_pos hc2]; exact ih _ _ h
    rw [if_neg hc2]
    have hnil := chapterChunks_fs_nil (ocr idx) ch.chapter_title
      (split_into_chunks (pystrip (pyjoinSp ch.chapter_content)) 250) 0 0
    split
    · rename_i fs' audio heq
      rw [h] at heq
      rw [heq] at hnil
      simp only at hnil
      subst hnil
      exact ih _ _ rfl
    · rename_i fs' e heq
      rw [h] at heq
      rw [heq] at hnil
      simp only at hnil
      subst hnil
      rfl

theorem exportPhase_mem (eb : ExportBehavior) (info : List Entry)
    (out : PyStr) (fs : Fs) :
    ∀ kv ∈ (exportPhase eb info out fs).1, kv.1 = out ∨ kv ∈ fs := by
  intro kv hkv
  rcases eb with ⟨er, ec, fr⟩
  cases er
  · cases fr
    · -- export and ffmpeg both succeed
      simp only [exportPhase, create_chapter_file, Bool.false_eq_true,
        if_false] at hkv
      have h1 := mem_removeFile hkv
      have h2 := mem_removeFile h1.1
      have h3 := mem_setFile h2.1
      rcases h3 with h3 | h3
      · exact Or.inl (congrArg Prod.fst h3)
      · have h4 := mem_setFile h3
        rcases h4 with h4 | h4
        · exact absurd (congrArg Prod.fst h4) h1.2
        · have h5 := mem_setFile h4
          rcases h5 with h5 | h5
          · exact absurd (congrArg Prod.fst h5) h2.2
          · exact Or.inr h5
    · -- ffmpeg raises
      simp only [exportPhase, create_chapter_file, Bool.false_eq_true,
        if_false, if_true] at hkv
      have h1 := mem_removeFile hkv
      have h2 := mem_removeFile h1.1
      have h3 := mem_setFile h2.1
      rcases h3 with h3 | h3
      · exact absurd (congrArg Prod.fst h3) h1.2
      · have h4 := mem_setFile h3
        rcases h4 with h4 | h4
        · exact absurd (congrArg Prod.fst h4) h2.2
        · exact Or.inr h4
  · cases ec
    · -- export raises without creating the file
      simp only [exportPhase, Bool.false_eq_true, if_false, if_true] at hkv
      have h1 := mem_removeFile hkv
      have h2 := mem_removeFile h1.1
      exact Or.inr h2.1
    · -- export raises leaving a partial file
      simp only [exportPhase, if_true] at hkv
      have h1 := mem_removeFile hkv
      have h2 := mem_removeFile h1.1
      have h3 := mem_setFile h2.1
      rcases h3 with h3 | h3
      · exact absurd (congrArg Prod.fst h3) h2.2
      · exact Or.inr h3

/-- Claim C9: after a run of the pipeline — whether it succeeds, the export
step raises, or a per-chunk error escapes — the filesystem contains no
temporary artifact: every per-attempt temp wav was removed at the end of its
attempt, and `temp_audiobook.m4a` and `chapters.txt` were removed by the
export step's `finally`; at most the final output file remains. -/
theorem c9_no_temp_artifacts (ocr : Nat → Nat → Nat → AttemptResult)
    (eb : ExportBehavior) (chapters : List Chapter) (output_file : PyStr) :
    (((create_audiobook_from_pickle ocr eb chapters output_file).1).fs).all
      (fun kv => decide (kv.1 = output_file)) = true := by
  have hfs := processChapters_fs_nil ocr chapters 0 ⟨[], 0, [], 0, []⟩ rfl
  rcases hp : processChapters ocr chapters 0 ⟨[], 0, [], 0, []⟩ with ⟨st, res⟩
  rw [hp] at hfs
  simp only at hfs
  cases res with
  | error e =>
    simp only [create_audiobook_from_pickle, hp]
    simp [hfs]
  | ok u =>
    cases u
    simp only [create_audiobook_from_pickle, hp]
    rw [List.all_eq_true]
    intro kv hkv
    have := exportPhase_mem eb st.chapters_info output_file st.fs kv hkv
    rw [hfs] at this
    rcases this with h | h
    · exact decide_eq_true h
    · simp at h

/-! ### Claim C6, part 1: bounds of the matcher

The main-loop fold keeps the best triple inside the ranges, each extension
loop's guard keeps it there, and the total of the matching blocks is bounded
by the size of either range — giving `ratio ∈ [0, 1]`. -/
theorem mem_b2j {b : PyStr} {c : Char} {j : Nat} :
    j ∈ b2j b c ↔ isPopular b c = false ∧ j < b.length ∧ chAt b j = c := by
  unfold b2j
  by_cases h : isPopular b c
  · simp [h]
  · rw [if_neg h]
    simp [List.mem_filter, List.mem_range, Bool.eq_false_iff, h]

theorem b2j_pairwise (b : PyStr) (c : Char) : (b2j b c).Pairwise (· < ·) := by
  unfold b2j
  by_cases h : isPopular b c
  · simp [h]
  · rw [if_neg h]
    exact (List.pairwise_lt_range _).sublist (List.filter_sublist _)

theorem innerFold_bounds (alo ahi blo bhi i t : Nat) (old : Nat → Nat)
    (hit : i = alo + t) (hi2 : i < ahi) (hold : MapInvB blo bhi t old) :
    ∀ (js : List Nat) (st : Match) (m : Nat → Nat),
      (∀ j ∈ js, blo ≤ j ∧ j < bhi) →
      StInv alo ahi blo bhi st →
      MapInvB blo bhi (t + 1) m →
      StInv alo ahi blo bhi ((js.foldl (innerStep i old) (st, m)).1) ∧
      MapInvB blo bhi (t + 1) ((js.foldl (innerStep i old) (st, m)).2) := by
  intro js
  induction js with
  | nil => intro st m _ h1 h2; exact ⟨h1, h2⟩
  | cons j rest ih =>
    intro st m hjs h1 h2
    have hj := hjs j (by simp)
    have hk : (if j = 0 then 0 else old (j - 1)) + 1 + blo ≤ j + 1 ∧
        (if j = 0 then 0 else old (j - 1)) + 1 ≤ t + 1 := by
      by_cases hj0 : j = 0
      · have he : (if j = 0 then 0 else old (j - 1)) = 0 := if_pos hj0
        rw [he]
        omega
      · rw [if_neg hj0]
        rcases hold (j - 1) with h | h
        · rw [h]; omega
        · omega
    rw [List.foldl_cons]
    simp only [innerStep]
    apply ih
    · exact fun x hx => hjs x (by simp [hx])
    · unfold innerStepSt
      by_cases hup : st.bestsize < (if j = 0 then 0 else old (j - 1)) + 1
      · rw [if_pos hup]
        rcases h1 with ⟨b1, b2, b3, b4⟩
        refine ⟨?_, ?_, ?_, ?_⟩ <;> dsimp only <;> omega
      · rw [if_neg hup]; exact h1
    · intro x
      dsimp only
      by_cases hx : x = j
      · rw [if_pos hx]
        right
        rw [hx]
        exact ⟨by omega, by omega, by omega, by omega⟩
      · rw [if_neg hx]
        exact h2 x

theorem rowsFold_bounds (a : PyStr) (bj : Char → List Nat) (alo ahi blo bhi : Nat) :
    ∀ (len s : Nat) (p : Match × (Nat → Nat)),
      alo ≤ s → s + len ≤ ahi →
      StInv alo ahi blo bhi p.1 → MapInvB blo bhi (s - alo) p.2 →
      StInv alo ahi blo bhi (((List.range' s len).foldl (rowStep a bj blo bhi) p).1) := by
  intro len
  induction len with
  | zero => intro s p _ _ h1 _; exact h1
  | succ len ih =>
    intro s p hs hlen h1 h2
    rw [show List.range' s (len + 1) = s :: List.range' (s + 1) len from rfl,
      List.foldl_cons]
    have hjs_mem : ∀ j ∈ (bj (chAt a s)).filter
        (fun j => decide (blo ≤ j) && decide (j < bhi)), blo ≤ j ∧ j < bhi := by
      intro j hj
      have := (List.mem_filter.1 hj).2
      simp only [Bool.and_eq_true, decide_eq_true_eq] at this
      exact this
    have hrow := innerFold_bounds alo ahi blo bhi s (s - alo) p.2 (by omega)
      (by omega) h2 ((bj (chAt a s)).filter
        (fun j => decide (blo ≤ j) && decide (j < bhi))) p.1 (fun _ => 0)
      hjs_mem h1 (fun _ => Or.inl rfl)
    have harith : s + 1 - alo = s - alo + 1 := by omega
    refine ih (s + 1) (rowStep a bj blo bhi p s) (by omega) (by omega) ?_ ?_
    · exact hrow.1
    · rw [harith]
      exact hrow.2

theorem flmMain_bounds (a : PyStr) (bj : Char → List Nat) (alo ahi blo bhi : Nat)
    (ha : alo ≤ ahi) (hb : blo ≤ bhi) :
    StInv alo ahi blo bhi (flmMain a bj alo ahi blo bhi) := by
  unfold flmMain
  refine rowsFold_bounds a bj alo ahi blo bhi (ahi - alo) alo
    (⟨alo, blo, 0⟩, fun _ => 0) le_rfl (by omega) ?_ ?_
  · exact ⟨le_rfl, by simpa using ha, le_rfl, by simpa using hb⟩
  · exact fun _ => Or.inl rfl

theorem extendLo_StInv (a b : PyStr) (junkSide : Bool) (jk : Char → Bool)
    (alo blo ahi bhi : Nat) : ∀ (fuel : Nat) (st : Match),
    StInv alo ahi blo bhi st →
    StInv alo ahi blo bhi (extendLo a b junkSide jk alo blo fuel st) := by
  intro fuel
  induction fuel with
  | zero => intro st h; exact h
  | succ fuel ih =>
    intro st h
    unfold extendLo
    by_cases hc : alo < st.besti ∧ blo < st.bestj ∧
        jk (chAt b (st.bestj - 1)) = junkSide ∧
        chAt a (st.besti - 1) = chAt b (st.bestj - 1)
    · rw [if_pos hc]
      refine ih _ ?_
      rcases h with ⟨b1, b2, b3, b4⟩
      refine ⟨?_, ?_, ?_, ?_⟩ <;> dsimp only <;> omega
    · rw [if_neg hc]; exact h

theorem extendHi_StInv (a b : PyStr) (junkSide : Bool) (jk : Char → Bool)
    (alo blo ahi bhi : Nat) : ∀ (fuel : Nat) (st : Match),
    StInv alo ahi blo bhi st →
    StInv alo ahi blo bhi (extendHi a b junkSide jk ahi bhi fuel st) := by
  intro fuel
  induction fuel with
  | zero => intro st h; exact h
  | succ fuel ih =>
    intro st h
    unfold extendHi
    by_cases hc : st.besti + st.bestsize < ahi ∧ st.bestj + st.bestsize < bhi ∧
        jk (chAt b (st.bestj + st.bestsize)) = junkSide ∧
        chAt a (st.besti + st.bestsize) = chAt b (st.bestj + st.bestsize)
    · rw [if_pos hc]
      refine ih _ ?_
      rcases h with ⟨b1, b2, b3, b4⟩
      refine ⟨?_, ?_, ?_, ?_⟩ <;> dsimp only <;> omega
    · rw [if_neg hc]; exact h

theorem find_longest_match_StInv (a b : PyStr) (jk : Char → Bool)
    (alo ahi blo bhi : Nat) (ha : alo ≤ ahi) (hb : blo ≤ bhi) :
    StInv alo ahi blo bhi (find_longest_match a b jk alo ahi blo bhi) := by
  unfold find_longest_match
  exact extendHi_StInv _ _ _ _ _ _ _ _ _ _
    (extendLo_StInv _ _ _ _ _ _ _ _ _ _
      (extendHi_StInv _ _ _ _ _ _ _ _ _ _
        (extendLo_StInv _ _ _ _ _ _ _ _ _ _
          (flmMain_bounds a (b2j b) alo ahi blo bhi ha hb))))

theorem matchTotal_le (a b : PyStr) (jk : Char → Bool) :
    ∀ (fuel alo ahi blo bhi : Nat), alo ≤ ahi → blo ≤ bhi →
      matchTotal a b jk fuel alo ahi blo bhi ≤ ahi - alo ∧
      matchTotal a b jk fuel alo ahi blo bhi ≤ bhi - blo := by
  intro fuel
  induction fuel with
  | zero => intro alo ahi blo bhi _ _; exact ⟨by simp [matchTotal], by simp [matchTotal]⟩
  | succ fuel ih =>
    intro alo ahi blo bhi ha hb
    have hst := find_longest_match_StInv a b jk alo ahi blo bhi ha hb
    rcases hst with ⟨b1, b2, b3, b4⟩
    simp only [matchTotal]
    by_cases hz : (find_longest_match a b jk alo ahi blo bhi).bestsize = 0
    · rw [if_pos hz]
      exact ⟨Nat.zero_le _, Nat.zero_le _⟩
    · rw [if_neg hz]
      have hL := ih alo (find_longest_match a b jk alo ahi blo bhi).besti
        blo (find_longest_match a b jk alo ahi blo bhi).bestj b1 b3
      have hR := ih ((find_longest_match a b jk alo ahi blo bhi).besti +
          (find_longest_match a b jk alo ahi blo bhi).bestsize) ahi
        ((find_longest_match a b jk alo ahi blo bhi).bestj +
          (find_longest_match a b jk alo ahi blo bhi).bestsize) bhi b2 b4
      exact ⟨by omega, by omega⟩

theorem condB_true_iff {a : PyStr} {alo ahi r j : Nat} :
    condB a alo ahi r j = true ↔
      j ∈ b2j a (chAt a r) ∧ alo ≤ j ∧ j < ahi := by
  simp [condB, and_assoc]

theorem condB_right_self {a : PyStr} {alo ahi r j : Nat}
    (h : condB a alo ahi r j = true) : condB a alo ahi j j = true := by
  rw [condB_true_iff] at h ⊢
  obtain ⟨hmem, h1, h2⟩ := h
  rw [mem_b2j] at hmem
  obtain ⟨hpop, hlt, hch⟩ := hmem
  refine ⟨?_, h1, h2⟩
  rw [mem_b2j, hch]
  exact ⟨hpop, hlt, rfl⟩

theorem condB_left_self {a : PyStr} {alo ahi r j : Nat}
    (h : condB a alo ahi r j = true) (h1 : alo ≤ r) (h2 : r < ahi)
    (h3 : r < a.length) : condB a alo ahi r r = true := by
  rw [condB_true_iff] at h ⊢
  obtain ⟨hmem, _, _⟩ := h
  rw [mem_b2j] at hmem
  exact ⟨by rw [mem_b2j]; exact ⟨hmem.1, h3, rfl⟩, h1, h2⟩

theorem rowMapF_zero_of_not_cond (a : PyStr) (alo ahi : Nat) :
    ∀ (t j : Nat), ¬ condB a alo ahi (alo + t) j = true →
      rowMapF a alo ahi t j = 0 := by
  intro t j h
  cases t with
  | zero => simp only [rowMapF]; rw [if_neg (by simpa using h)]
  | succ t => simp only [rowMapF]; rw [if_neg (by simpa using h)]

theorem rowMapF_zero_of_lt_alo (a : PyStr) (alo ahi : Nat) :
    ∀ (t j : Nat), j < alo → rowMapF a alo ahi t j = 0 := by
  intro t j hj
  apply rowMapF_zero_of_not_cond
  intro hc
  have := (condB_true_iff.1 hc).2.1
  omega

theorem kVal_eq_rowMapF (a : PyStr) (alo ahi t j : Nat)
    (h : condB a alo ahi (alo + t) j = true) :
    (if j = 0 then 0 else prevMap a alo ahi t (j - 1)) + 1 =
      rowMapF a alo ahi t j := by
  cases t with
  | zero =>
    have h' : condB a alo ahi alo j = true := by simpa using h
    simp only [rowMapF, prevMap]
    rw [if_pos h']
    by_cases hj : j = 0 <;> simp [hj]
  | succ t =>
    have h' : condB a alo ahi (alo + t + 1) j = true := by
      have he : alo + (t + 1) = alo + t + 1 := rfl
      rw [← he]; exact h
    simp only [rowMapF, prevMap]
    rw [if_pos h']

theorem rowMapF_lt_dominated (a : PyStr) (alo ahi : Nat) :
    ∀ (t j : Nat), j < alo + t →
      rowMapF a alo ahi t j ≤ rowMapF a alo ahi (j - alo) j := by
  intro t
  induction t with
  | zero =>
    intro j hj
    rw [rowMapF_zero_of_lt_alo a alo ahi 0 j (by omega)]
    exact Nat.zero_le _
  | succ t ih =>
    intro j hj
    by_cases hc : condB a alo ahi (alo + t + 1) j = true
    · have hcj : condB a alo ahi j j = true := condB_right_self hc
      have halo_j : alo ≤ j := (condB_true_iff.1 hcj).2.1
      have hlhs : rowMapF a alo ahi (t + 1) j =
          (if j = 0 then 0 else rowMapF a alo ahi t (j - 1)) + 1 := by
        simp only [rowMapF]
        rw [if_pos hc]
      rw [hlhs]
      by_cases hja : j = alo
      · -- the diagonal value at `alo` is 1, and the inner entry is 0
        have hd : rowMapF a alo ahi (j - alo) j = 1 := by
          rw [show j - alo = 0 from by omega]
          simp only [rowMapF]
          rw [show condB a alo ahi alo j = condB a alo ahi j j from by rw [hja],
            if_pos hcj]
        rw [hd]
        by_cases hj0 : j = 0
        · rw [if_pos hj0]
        · rw [if_neg hj0]
          rw [rowMapF_zero_of_lt_alo a alo ahi t (j - 1) (by omega)]
      · -- `j > alo`: peel one step off the diagonal value as well
        have hjalo : alo < j := by omega
        have hj0 : j ≠ 0 := by omega
        rw [if_neg hj0]
        have hrow : alo + (j - 1 - alo) + 1 = j := by omega
        have hd : rowMapF a alo ahi (j - alo) j =
            rowMapF a alo ahi (j - 1 - alo) (j - 1) + 1 := by
          rw [show j - alo = (j - 1 - alo) + 1 from by omega]
          simp only [rowMapF]
          rw [hrow, if_pos hcj, if_neg hj0]
        rw [hd]
        have := ih (j - 1) (by omega)
        omega
    · rw [rowMapF_zero_of_not_cond a alo ahi (t + 1) j (by simpa using hc)]
      exact Nat.zero_le _

theorem rowMapF_gt_dominated (a : PyStr) (alo ahi : Nat) (hlen : ahi ≤ a.length) :
    ∀ (t j : Nat), alo + t < ahi → alo + t < j →
      rowMapF a alo ahi t j ≤ rowMapF a alo ahi t (alo + t) := by
  intro t
  induction t with
  | zero =>
    intro j h1 h2
    by_cases hc : condB a alo ahi alo j = true
    · have hcc : condB a alo ahi alo alo = true :=
        condB_left_self hc le_rfl (by omega) (by omega)
      simp only [rowMapF]
      rw [if_pos hc, if_pos (by simpa using hcc)]
    · simp only [rowMapF]
      rw [if_neg hc]
      exact Nat.zero_le _
  | succ t ih =>
    intro j h1 h2
    have he : alo + (t + 1) = alo + t + 1 := rfl
    by_cases hc : condB a alo ahi (alo + t + 1) j = true
    · have hcc : condB a alo ahi (alo + t + 1) (alo + t + 1) = true :=
        condB_left_self hc (by omega) (by omega) (by omega)
      have hL : rowMapF a alo ahi (t + 1) j = rowMapF a alo ahi t (j - 1) + 1 := by
        simp only [rowMapF]
        rw [if_pos hc, if_neg (show ¬ j = 0 by omega)]
      have hR : rowMapF a alo ahi (t + 1) (alo + (t + 1)) =
          rowMapF a alo ahi t (alo + t) + 1 := by
        simp only [rowMapF]
        rw [he, if_pos hcc, if_neg (show ¬ alo + t + 1 = 0 by omega),
          show alo + t + 1 - 1 = alo + t from by omega]
      rw [hL, hR]
      exact Nat.succ_le_succ (ih (j - 1) (by omega) (by omega))
    · rw [rowMapF_zero_of_not_cond a alo ahi (t + 1) j (by rw [he]; exact hc)]
      exact Nat.zero_le _

theorem innerFold_fst (i : Nat) (old : Nat → Nat) :
    ∀ (js : List Nat) (st : Match) (m : Nat → Nat),
      ((js.foldl (innerStep i old) (st, m)).1) =
        js.foldl (innerStepSt i old) st := by
  intro js
  induction js with
  | nil => intro st m; rfl
  | cons j rest ih =>
    intro st m
    rw [List.foldl_cons, List.foldl_cons]
    simp only [innerStep]
    exact ih _ _

theorem innerFold_map (i : Nat) (old : Nat → Nat) :
    ∀ (js : List Nat) (st : Match) (m : Nat → Nat) (x : Nat),
      ((js.foldl (innerStep i old) (st, m)).2) x =
        if x ∈ js then (if x = 0 then 0 else old (x - 1)) + 1 else m x := by
  intro js
  induction js with
  | nil => intro st m x; simp
  | cons j rest ih =>
    intro st m x
    rw [List.foldl_cons]
    simp only [innerStep]
    rw [ih]
    by_cases hx : x ∈ rest
    · simp [hx]
    · by_cases hxj : x = j
      · simp [hx, hxj]
      · simp [hx, hxj]

theorem innerFold_diag (a : PyStr) (alo ahi i t : Nat) (old : Nat → Nat)
    (hit : i = alo + t) (hi2 : i < ahi) (hlen : ahi ≤ a.length)
    (hold : ∀ x, old x = prevMap a alo ahi t x) :
    ∀ (js : List Nat) (st : Match),
      js.Pairwise (· < ·) →
      (∀ j ∈ js, condB a alo ahi i j = true) →
      st.besti = st.bestj →
      (∀ p, alo ≤ p → p < i → rowMapF a alo ahi (p - alo) p ≤ st.bestsize) →
      (condB a alo ahi i i = true →
        i ∈ js ∨ rowMapF a alo ahi t i ≤ st.bestsize) →
      (js.foldl (innerStepSt i old) st).besti =
        (js.foldl (innerStepSt i old) st).bestj ∧
      (∀ p, alo ≤ p → p < i →
        rowMapF a alo ahi (p - alo) p ≤ (js.foldl (innerStepSt i old) st).bestsize) ∧
      rowMapF a alo ahi t i ≤ (js.foldl (innerStepSt i old) st).bestsize := by
  intro js
  induction js with
  | nil =>
    intro st _ _ hdiag hdom hmem
    refine ⟨hdiag, hdom, ?_⟩
    by_cases hc : condB a alo ahi i i = true
    · rcases hmem hc with h | h
      · simp at h
      · exact h
    · rw [rowMapF_zero_of_not_cond a alo ahi t i (by rw [← hit]; exact hc)]
      exact Nat.zero_le _
  | cons j rest ih =>
    intro st hpw hjs hdiag hdom hmem
    have hcj := hjs j (by simp)
    have hk : (if j = 0 then 0 else old (j - 1)) + 1 = rowMapF a alo ahi t j := by
      have hkk := kVal_eq_rowMapF a alo ahi t j (by rw [← hit]; exact hcj)
      rw [← hkk]
      by_cases hj0 : j = 0
      · simp [hj0]
      · simp [hj0, hold]
    have halo_j : alo ≤ j := (condB_true_iff.1 hcj).2.1
    rw [List.foldl_cons]
    rcases Nat.lt_trichotomy j i with hji | hji | hji
    · -- j < i: the diagonal at row j already dominates; no update
      have hle : rowMapF a alo ahi t j ≤ st.bestsize := by
        have h1 := rowMapF_lt_dominated a alo ahi t j (by omega)
        exact le_trans h1 (hdom j halo_j hji)
      have hnoup : innerStepSt i old st j = st := by
        unfold innerStepSt
        rw [if_neg (by rw [hk]; omega)]
      rw [hnoup]
      refine ih st hpw.of_cons (fun x hx => hjs x (by simp [hx])) hdiag hdom ?_
      intro hc
      rcases hmem hc with h | h
      · rcases List.mem_cons.1 h with h | h
        · omega
        · exact Or.inl h
      · exact Or.inr h
    · -- j = i: the diagonal entry itself; update keeps the triple diagonal
      subst hji
      by_cases hup : st.bestsize < (if j = 0 then 0 else old (j - 1)) + 1
      · have hst : innerStepSt j old st j =
            ⟨j + 1 - rowMapF a alo ahi t j, j + 1 - rowMapF a alo ahi t j,
              rowMapF a alo ahi t j⟩ := by
          unfold innerStepSt
          rw [if_pos hup, hk]
        rw [hst]
        refine ih _ hpw.of_cons (fun x hx => hjs x (by simp [hx])) rfl ?_ ?_
        · intro p h1 h2
          have := hdom p h1 h2
          dsimp only
          rw [hk] at hup
          omega
        · intro _
          exact Or.inr (by dsimp only; exact le_rfl)
      · have hnoup : innerStepSt j old st j = st := by
          unfold innerStepSt
          rw [if_neg hup]
        rw [hnoup]
        rw [hk] at hup
        refine ih st hpw.of_cons (fun x hx => hjs x (by simp [hx])) hdiag hdom ?_
        intro _
        exact Or.inr (by omega)
    · -- j > i: the diagonal at column i was processed first in this row
      have hbound : rowMapF a alo ahi t j ≤ rowMapF a alo ahi t (alo + t) :=
        rowMapF_gt_dominated a alo ahi hlen t j (by omega) (by omega)
      rw [← hit] at hbound
      have hcc : condB a alo ahi i i = true :=
        condB_left_self hcj (by omega) hi2 (by omega)
      have hbest : rowMapF a alo ahi t i ≤ st.bestsize := by
        rcases hmem hcc with h | h
        · rcases List.mem_cons.1 h with h | h
          · omega
          · have := (List.pairwise_cons.1 hpw).1 i h
            omega
        · exact h
      have hnoup : innerStepSt i old st j = st := by
        unfold innerStepSt
        rw [if_neg (by rw [hk]; omega)]
      rw [hnoup]
      refine ih st hpw.of_cons (fun x hx => hjs x (by simp [hx])) hdiag hdom ?_
      intro _
      exact Or.inr hbest

theorem rowsFold_diag (a : PyStr) (alo ahi : Nat) (hlen : ahi ≤ a.length) :
    ∀ (len t : Nat) (p : Match × (Nat → Nat)),
      alo + t + len ≤ ahi →
      p.1.besti = p.1.bestj →
      (∀ q, alo ≤ q → q < alo + t → rowMapF a alo ahi (q - alo) q ≤ p.1.bestsize) →
      (∀ x, p.2 x = prevMap a alo ahi t x) →
      (((List.range' (alo + t) len).foldl (rowStep a (b2j a) alo ahi) p).1).besti =
        (((List.range' (alo + t) len).foldl (rowStep a (b2j a) alo ahi) p).1).bestj ∧
      (∀ q, alo ≤ q → q < alo + t + len →
        rowMapF a alo ahi (q - alo) q ≤
          (((List.range' (alo + t) len).foldl (rowStep a (b2j a) alo ahi) p).1).bestsize) := by
  intro len
  induction len with
  | zero =>
    intro t p _ hdiag hdom _
    exact ⟨hdiag, fun q h1 h2 => hdom q h1 (by omega)⟩
  | succ len ih =>
    intro t p hle hdiag hdom hmap
    rw [show List.range' (alo + t) (len + 1) =
      (alo + t) :: List.range' (alo + t + 1) len from rfl, List.foldl_cons]
    have hpwf : ((b2j a (chAt a (alo + t))).filter
        (fun j => decide (alo ≤ j) && decide (j < ahi))).Pairwise (· < ·) :=
      (b2j_pairwise a _).sublist (List.filter_sublist _)
    have hjsf : ∀ j ∈ (b2j a (chAt a (alo + t))).filter
        (fun j => decide (alo ≤ j) && decide (j < ahi)),
        condB a alo ahi (alo + t) j = true := by
      intro j hj
      have h1 := List.mem_filter.1 hj
      have h2 : alo ≤ j ∧ j < ahi := by simpa using h1.2
      exact condB_true_iff.2 ⟨h1.1, h2.1, h2.2⟩
    have hmemf : condB a alo ahi (alo + t) (alo + t) = true →
        (alo + t) ∈ (b2j a (chAt a (alo + t))).filter
          (fun j => decide (alo ≤ j) && decide (j < ahi)) ∨
        rowMapF a alo ahi t (alo + t) ≤ p.1.bestsize := by
      intro hc
      left
      have h1 := condB_true_iff.1 hc
      exact List.mem_filter.2 ⟨h1.1, by simp [h1.2.1, h1.2.2]⟩
    have hfst : (rowStep a (b2j a) alo ahi p (alo + t)).1 =
        ((b2j a (chAt a (alo + t))).filter
          (fun j => decide (alo ≤ j) && decide (j < ahi))).foldl
          (innerStepSt (alo + t) p.2) p.1 := by
      simp only [rowStep]
      exact innerFold_fst _ _ _ _ _
    have hdiag' := innerFold_diag a alo ahi (alo + t) t p.2 rfl (by omega) hlen
      hmap ((b2j a (chAt a (alo + t))).filter
        (fun j => decide (alo ≤ j) && decide (j < ahi))) p.1 hpwf hjsf hdiag
      (fun q h1 h2 => hdom q h1 h2) hmemf
    have hsnd : ∀ x, (rowStep a (b2j a) alo ahi p (alo + t)).2 x =
        prevMap a alo ahi (t + 1) x := by
      intro x
      simp only [rowStep]
      rw [innerFold_map]
      by_cases hx : x ∈ (b2j a (chAt a (alo + t))).filter
          (fun j => decide (alo ≤ j) && decide (j < ahi))
      · rw [if_pos hx]
        have hcx := hjsf x hx
        have hkk := kVal_eq_rowMapF a alo ahi t x hcx
        show _ = rowMapF a alo ahi t x
        rw [← hkk]
        by_cases hx0 : x = 0
        · simp [hx0]
        · simp [hx0, hmap]
      · rw [if_neg hx]
        have hnc : ¬ condB a alo ahi (alo + t) x = true := by
          intro hc
          have h1 := condB_true_iff.1 hc
          exact hx (List.mem_filter.2 ⟨h1.1, by simp [h1.2.1, h1.2.2]⟩)
        show (0 : Nat) = prevMap a alo ahi (t + 1) x
        simp only [prevMap]
        exact (rowMapF_zero_of_not_cond a alo ahi t x hnc).symm
    have hres := ih (t + 1) (rowStep a (b2j a) alo ahi p (alo + t)) (by omega)
      (by rw [hfst]; exact hdiag'.1)
      (by
        intro q h1 h2
        rw [hfst]
        rcases Nat.lt_or_ge q (alo + t) with hq | hq
        · exact hdiag'.2.1 q h1 hq
        · have hqe : q = alo + t := by omega
          rw [hqe, show alo + t - alo = t from by omega]
          exact hdiag'.2.2)
      hsnd
    refine ⟨hres.1, ?_⟩
    intro q h1 h2
    exact hres.2 q h1 (by omega)

theorem flmMain_diag (a : PyStr) (alo ahi : Nat) (ha : alo ≤ ahi)
    (hlen : ahi ≤ a.length) :
    (flmMain a (b2j a) alo ahi alo ahi).besti =
      (flmMain a (b2j a) alo ahi alo ahi).bestj ∧
    ∀ q, alo ≤ q → q < ahi →
      rowMapF a alo ahi (q - alo) q ≤ (flmMain a (b2j a) alo ahi alo ahi).bestsize := by
  unfold flmMain
  have h := rowsFold_diag a alo ahi hlen (ahi - alo) 0
    (⟨alo, alo, 0⟩, fun _ => 0) (by omega) rfl
    (fun q h1 h2 => by omega) (fun x => rfl)
  refine ⟨h.1, fun q h1 h2 => h.2 q h1 (by omega)⟩

theorem Match_eq (m1 m2 : Match) (h1 : m1.besti = m2.besti)
    (h2 : m1.bestj = m2.bestj) (h3 : m1.bestsize = m2.bestsize) : m1 = m2 := by
  rcases m1 with ⟨x1, y1, z1⟩
  rcases m2 with ⟨x2, y2, z2⟩
  dsimp only at h1 h2 h3
  rw [h1, h2, h3]

theorem extendLo_stuck (a b : PyStr) (junkSide : Bool) (jk : Char → Bool)
    (alo blo fuel : Nat) (st : Match) (h : ¬ alo < st.besti) :
    extendLo a b junkSide jk alo blo fuel st = st := by
  cases fuel with
  | zero => rfl
  | succ fuel =>
    rw [extendLo, if_neg]
    intro hc
    exact h hc.1

theorem extendHi_stuck (a b : PyStr) (junkSide : Bool) (jk : Char → Bool)
    (ahi bhi fuel : Nat) (st : Match) (h : ¬ st.besti + st.bestsize < ahi) :
    extendHi a b junkSide jk ahi bhi fuel st = st := by
  cases fuel with
  | zero => rfl
  | succ fuel =>
    rw [extendHi, if_neg]
    intro hc
    exact h hc.1

theorem extendLo_true_noop (a b : PyStr) (alo blo fuel : Nat) (st : Match) :
    extendLo a b true (fun _ => false) alo blo fuel st = st := by
  cases fuel with
  | zero => rfl
  | succ fuel =>
    rw [extendLo, if_neg]
    intro hc
    exact absurd hc.2.2.1 (by simp)

theorem extendHi_true_noop (a b : PyStr) (ahi bhi fuel : Nat) (st : Match) :
    extendHi a b true (fun _ => false) ahi bhi fuel st = st := by
  cases fuel with
  | zero => rfl
  | succ fuel =>
    rw [extendHi, if_neg]
    intro hc
    exact absurd hc.2.2.1 (by simp)

/-- On identical strings a diagonal triple is extended backwards all the way
to `alo` by the non-junk backward loop. -/
theorem extendLo_false_self (a : PyStr) (alo : Nat) : ∀ (fuel : Nat) (st : Match),
    st.besti = st.bestj → alo ≤ st.besti → st.besti - alo ≤ fuel →
    extendLo a a false (fun _ => false) alo alo fuel st =
      ⟨alo, alo, st.bestsize + (st.besti - alo)⟩ := by
  intro fuel
  induction fuel with
  | zero =>
    intro st h1 h2 h3
    rcases st with ⟨bi, bj, bs⟩
    dsimp only at h1 h2 h3 ⊢
    rw [extendLo]
    exact Match_eq _ _ (by dsimp only; omega) (by dsimp only; omega)
      (by dsimp only; omega)
  | succ fuel ih =>
    intro st h1 h2 h3
    by_cases hA : alo < st.besti
    · rw [extendLo, if_pos ⟨hA, by omega, rfl, by rw [h1]⟩]
      rw [ih ⟨st.besti - 1, st.bestj - 1, st.bestsize + 1⟩ (by dsimp only; omega)
        (by dsimp only; omega) (by dsimp only; omega)]
      exact Match_eq _ _ rfl rfl (by dsimp only; omega)
    · rw [extendLo, if_neg (fun hc => hA hc.1)]
      rcases st with ⟨bi, bj, bs⟩
      dsimp only at h1 h2 hA ⊢
      exact Match_eq _ _ (by dsimp only; omega) (by dsimp only; omega)
        (by dsimp only; omega)

/-- On identical strings a diagonal triple is extended forwards all the way
to `ahi` by the non-junk forward loop. -/
theorem extendHi_false_self (a : PyStr) (ahi : Nat) : ∀ (fuel : Nat) (st : Match),
    st.besti = st.bestj → st.besti + st.bestsize ≤ ahi →
    ahi - (st.besti + st.bestsize) ≤ fuel →
    extendHi a a false (fun _ => false) ahi ahi fuel st =
      ⟨st.besti, st.bestj, ahi - st.besti⟩ := by
  intro fuel
  induction fuel with
  | zero =>
    intro st h1 h2 h3
    rcases st with ⟨bi, bj, bs⟩
    dsimp only at h1 h2 h3 ⊢
    rw [extendHi]
    exact Match_eq _ _ rfl rfl (by dsimp only; omega)
  | succ fuel ih =>
    intro st h1 h2 h3
    by_cases hA : st.besti + st.bestsize < ahi
    · rw [extendHi, if_pos ⟨hA, by omega, rfl, by rw [h1]⟩]
      rw [ih ⟨st.besti, st.bestj, st.bestsize + 1⟩ (by dsimp only; exact h1)
        (by dsimp only; omega) (by dsimp only; omega)]
    · rw [extendHi, if_neg (fun hc => hA hc.1)]
      rcases st with ⟨bi, bj, bs⟩
      dsimp only at h1 h2 hA ⊢
      exact Match_eq _ _ rfl rfl (by dsimp only; omega)

/-- On identical strings with aligned ranges, `find_longest_match` returns
the whole range in a single (diagonal) block. -/
theorem find_longest_match_self (a : PyStr) (alo ahi : Nat) (ha : alo ≤ ahi)
    (hlen : ahi ≤ a.length) :
    find_longest_match a a (fun _ => false) alo ahi alo ahi =
      ⟨alo, alo, ahi - alo⟩ := by
  have hdiag := flmMain_diag a alo ahi ha hlen
  have hbnd := flmMain_bounds a (b2j a) alo ahi alo ahi ha ha
  rcases hbnd with ⟨b1, b2, b3, b4⟩
  unfold find_longest_match
  rw [extendLo_false_self a alo _ _ hdiag.1 b1 (by omega)]
  rw [extendHi_false_self a ahi _ _ rfl (by dsimp only; omega)
    (by dsimp only; omega)]
  rw [extendLo_true_noop, extendHi_true_noop]

theorem find_longest_match_empty (a b : PyStr) (jk : Char → Bool) (x y : Nat) :
    find_longest_match a b jk x x y y = ⟨x, y, 0⟩ := by
  have hmain : flmMain a (b2j b) x x y y = ⟨x, y, 0⟩ := by
    unfold flmMain
    rw [Nat.sub_self]
    rfl
  unfold find_longest_match
  rw [hmain]
  rw [extendLo_stuck a b false jk x y _ _ (Nat.lt_irrefl x)]
  rw [extendHi_stuck a b false jk x y _ _ (show ¬ x + 0 < x by omega)]
  rw [extendLo_stuck a b true jk x y _ _ (Nat.lt_irrefl x)]
  rw [extendHi_stuck a b true jk x y _ _ (show ¬ x + 0 < x by omega)]

theorem matchTotal_empty (a b : PyStr) (jk : Char → Bool) (fuel x y : Nat) :
    matchTotal a b jk fuel x x y y = 0 := by
  cases fuel with
  | zero => rfl
  | succ fuel =>
    simp only [matchTotal]
    rw [find_longest_match_empty]
    rfl

theorem matchTotal_self (a : PyStr) (fuel : Nat) (h : 1 ≤ fuel) :
    matchTotal a a (fun _ => false) fuel 0 a.length 0 a.length = a.length := by
  obtain ⟨f, rfl⟩ : ∃ f, fuel = f + 1 := ⟨fuel - 1, by omega⟩
  simp only [matchTotal]
  rw [find_longest_match_self a 0 a.length (Nat.zero_le _) le_rfl]
  by_cases hn : a.length = 0
  · simp [hn]
  · rw [if_neg (by dsimp only; omega)]
    have h1 := matchTotal_empty a a (fun _ => false) f 0 0
    have h2 := matchTotal_empty a a (fun _ => false) f
      (0 + (a.length - 0)) (0 + (a.length - 0))
    dsimp only
    rw [h1]
    rw [show (0 : Nat) + (a.length - 0) = a.length from by omega] at h2
    rw [show (0 : Nat) + (a.length - 0) = a.length from by omega, h2]
    omega

theorem ratioQ_self (a : PyStr) : ratioQ a a = 1 := by
  unfold ratioQ
  by_cases h : a.length + a.length = 0
  · rw [if_pos h]
  · rw [if_neg h]
    rw [matchTotal_self a (a.length + a.length + 1) (by omega)]
    have hne : ((a.length : ℚ) + (a.length : ℚ)) ≠ 0 := by
      have h1 : 0 < a.length := by omega
      have h2 : (0 : ℚ) < (a.length : ℚ) := by exact_mod_cast h1
      exact ne_of_gt (by linarith)
    rw [div_eq_one_iff_eq hne]
    ring

theorem ratioQ_bounds (a b : PyStr) : 0 ≤ ratioQ a b ∧ ratioQ a b ≤ 1 := by
  unfold ratioQ
  by_cases h : a.length + b.length = 0
  · rw [if_pos h]
    norm_num
  · rw [if_neg h]
    have hM := matchTotal_le a b (fun _ => false) (a.length + b.length + 1)
      0 a.length 0 b.length (Nat.zero_le _) (Nat.zero_le _)
    have h2M : 2 * matchTotal a b (fun _ => false) (a.length + b.length + 1)
        0 a.length 0 b.length ≤ a.length + b.length := by omega
    have hpos : (0 : ℚ) < (a.length : ℚ) + (b.length : ℚ) := by
      have h0 : 0 < a.length + b.length := by omega
      exact_mod_cast h0
    constructor
    · apply div_nonneg _ (le_of_lt hpos)
      positivity
    · rw [div_le_one hpos]
      exact_mod_cast h2M

/-- Claim C6 (amended): `text_similarity` always lies in `[0, 1]` and equals
`1.0` on any pair of equal inputs (in particular those whose normalized form
is non-empty).  The claim's symmetry part `similarity(a,b) = similarity(b,a)`
does not hold in general — see `c6_counterexample`. -/
theorem c6_similarity_bounds_and_identity :
    (∀ a b : PyStr, 0 ≤ text_similarity a b ∧ text_similarity a b ≤ 1) ∧
    (∀ x : PyStr, text_similarity x x = 1) :=
  ⟨fun _ _ => ratioQ_bounds _ _, fun _ => ratioQ_self _⟩

/-- Claim C6 counterexample: `SequenceMatcher.ratio` is not symmetric.  On
the normalized inputs `"tide"` and `"diet"`, `text_similarity` gives 1/4 one
way (only `'t'` matches before recursion stops) and 1/2 the other way
(`'d'` matches, then `'e'` in the right remainder). -/
theorem c6_counterexample :
    text_similarity (pyOf "tide") (pyOf "diet") ≠
      text_similarity (pyOf "diet") (pyOf "tide") := by
  have e1 : text_similarity (pyOf "tide") (pyOf "diet") = 1 / 4 := by
    rw [text_similarity,
      show normalizeText (pyOf "tide") = pyOf "tide" from by decide,
      show normalizeText (pyOf "diet") = pyOf "diet" from by decide]
    unfold ratioQ
    norm_num [show (pyOf "tide").length = 4 from rfl,
      show (pyOf "diet").length = 4 from rfl,
      show matchTotal (pyOf "tide") (pyOf "diet") (fun _ => false) 9 0 4 0 4 = 1
        from by decide]
  have e2 : text_similarity (pyOf "diet") (pyOf "tide") = 1 / 2 := by
    rw [text_similarity,
      show normalizeText (pyOf "diet") = pyOf "diet" from by decide,
      show normalizeText (pyOf "tide") = pyOf "tide" from by decide]
    unfold ratioQ
    norm_num [show (pyOf "diet").length = 4 from rfl,
      show (pyOf "tide").length = 4 from rfl,
      show matchTotal (pyOf "diet") (pyOf "tide") (fun _ => false) 9 0 4 0 4 = 2
        from by decide]
  rw [e1, e2]
  norm_num

/-! ### Claim C10: `create_chapter_file` ignores its `output_file` argument -/
/-- Claim C10: `create_chapter_file` writes the rendered chapter metadata to
the fixed path `'chapters.txt'` and ignores `output_file` entirely: calls
differing only in `output_file` have identical filesystem effects, and the
only key affected is `'chapters.txt'`. -/
theorem c10_output_file_ignored :
    (∀ (info : List Entry) (o1 o2 : PyStr) (fs : Fs),
      create_chapter_file info o1 fs = create_chapter_file info o2 fs) ∧
    (∀ (info : List Entry) (o : PyStr) (fs : Fs) (k : PyStr),
      lookupFile (create_chapter_file info o fs) k =
        if k = pyOf "chapters.txt" then some (.text (renderChapters info))
        else lookupFile fs k) := by
  constructor
  · intro info o1 o2 fs; rfl
  · intro info o fs k
    exact lookupFile_setFile fs _ _ k

end OAB
